import Mathlib

/-!
# Verification of the experience buffer and recurrent segmentation engine

Shallow embedding of `src/experience.py` (ExperienceStorage, ExperienceBatch)
and of `src/policy.py` (`RecurrentPolicy._forward_gru`), with theorems settling
the frozen claims about them.

Tensors are modelled time-major as total functions `step → env → ℚ`
(observation/hidden vectors get one extra feature index).  Python's negative
indexing is modelled explicitly by `pyIdx`.  Arithmetic is exact (ℚ) where the
code uses floating point; the claims are about the algebraic structure of the
computations.
-/

namespace Mario

/-- Python-style index resolution: a negative index `i` into an array of
length `len` denotes slot `len + i`. -/
def pyIdx (len : ℕ) (i : ℤ) : ℕ :=
  if i < 0 then (len + i).toNat else i.toNat

/-- The rollout buffer of `ExperienceStorage.__init__` (src/experience.py).
Time-major layout: `observations`, `valuePredictions`, `returns`, `masks`,
`recurrentHiddenStates` have `numSteps + 1` meaningful slots, the rest
`numSteps`.  Observation and hidden vectors carry an extra feature index. -/
structure ExperienceStorage where
  numSteps : ℕ
  numEnvs : ℕ
  step : ℕ
  observations : ℕ → ℕ → ℕ → ℚ
  actions : ℕ → ℕ → ℤ
  actionLogProbs : ℕ → ℕ → ℚ
  rewards : ℕ → ℕ → ℚ
  valuePredictions : ℕ → ℕ → ℚ
  returns : ℕ → ℕ → ℚ
  masks : ℕ → ℕ → ℚ
  recurrentHiddenStates : ℕ → ℕ → ℕ → ℚ

/-- `ExperienceStorage.__init__`: all tensors zero except `masks`, which is
ones; the write cursor `_step` starts at 0. -/
def mkStorage (numSteps numEnvs : ℕ) : ExperienceStorage where
  numSteps := numSteps
  numEnvs := numEnvs
  step := 0
  observations := fun _ _ _ => 0
  actions := fun _ _ => 0
  actionLogProbs := fun _ _ => 0
  rewards := fun _ _ => 0
  valuePredictions := fun _ _ => 0
  returns := fun _ _ => 0
  masks := fun _ _ => 1
  recurrentHiddenStates := fun _ _ _ => 0

/-- Write a whole time-slot of a 2-index tensor. -/
def writeSlot {α : Type} (f : ℕ → ℕ → α) (t : ℕ) (v : ℕ → α) : ℕ → ℕ → α :=
  fun s e => if s = t then v e else f s e

/-- Write a whole time-slot of a 3-index tensor. -/
def writeSlot2 (f : ℕ → ℕ → ℕ → ℚ) (t : ℕ) (v : ℕ → ℕ → ℚ) : ℕ → ℕ → ℕ → ℚ :=
  fun s e i => if s = t then v e i else f s e i

/-- `ExperienceStorage.insert`: writes the "next" quantities at slot
`_step + 1` and the per-step quantities at slot `_step`, then advances
`_step = (_step + 1) % num_steps`. -/
def insert (st : ExperienceStorage)
    (obs : ℕ → ℕ → ℚ) (acts : ℕ → ℤ) (logProbs rws vps mks : ℕ → ℚ)
    (rhs : ℕ → ℕ → ℚ) : ExperienceStorage :=
  { st with
    observations := writeSlot2 st.observations (st.step + 1) obs
    actions := writeSlot st.actions st.step acts
    actionLogProbs := writeSlot st.actionLogProbs st.step logProbs
    rewards := writeSlot st.rewards st.step rws
    valuePredictions := writeSlot st.valuePredictions st.step vps
    masks := writeSlot st.masks (st.step + 1) mks
    recurrentHiddenStates := writeSlot2 st.recurrentHiddenStates (st.step + 1) rhs
    step := (st.step + 1) % st.numSteps }

/-- `ExperienceStorage.insert_initial_observations`: seeds slot 0 of
`observations` only. -/
def insertInitialObservations (st : ExperienceStorage)
    (obs : ℕ → ℕ → ℚ) : ExperienceStorage :=
  { st with observations := writeSlot2 st.observations 0 obs }

/-- `ExperienceStorage.get_actor_input`: observation, hidden state and mask at
`step` (arrays of length `num_steps + 1`), previous action and reward at
`step - 1` (arrays of length `num_steps`), with Python negative-index
semantics. -/
def getActorInput (st : ExperienceStorage) (step : ℤ) :
    (ℕ → ℕ → ℚ) × (ℕ → ℕ → ℚ) × (ℕ → ℚ) × (ℕ → ℤ) × (ℕ → ℚ) :=
  (st.observations (pyIdx (st.numSteps + 1) step),
   st.recurrentHiddenStates (pyIdx (st.numSteps + 1) step),
   st.masks (pyIdx (st.numSteps + 1) step),
   st.actions (pyIdx st.numSteps (step - 1)),
   st.rewards (pyIdx st.numSteps (step - 1)))

/-- `ExperienceStorage.get_critic_input`: the actor accessor at `step = -1`. -/
def getCriticInput (st : ExperienceStorage) :
    (ℕ → ℕ → ℚ) × (ℕ → ℕ → ℚ) × (ℕ → ℚ) × (ℕ → ℤ) × (ℕ → ℚ) :=
  getActorInput st (-1)

/-- The body of the backward GAE loop of `ExperienceStorage.compute_returns`:
processes the steps in the given list in order, carrying the running `gae`
tensor and accumulating writes into the `returns` tensor.  Per iteration
(elementwise per environment `e`):
`delta = rws[step] + discount·vps[step+1]·mks[step+1] − vps[step]`,
`gae = delta + discount·gaeLambda·mks[step+1]·gae`,
`returns[step] = gae + vps[step]` (the `delta`/`gae` temporaries are inlined). -/
def computeReturnsGo (discount gaeLambda : ℚ)
    (rws vps mks : ℕ → ℕ → ℚ) :
    List ℕ → (ℕ → ℚ) → (ℕ → ℕ → ℚ) → (ℕ → ℕ → ℚ)
  | [], _, rets => rets
  | step :: rest, gae, rets =>
      computeReturnsGo discount gaeLambda rws vps mks rest
        (fun e =>
          (rws step e + discount * vps (step + 1) e * mks (step + 1) e -
            vps step e) +
          discount * gaeLambda * mks (step + 1) e * gae e)
        (writeSlot rets step (fun e =>
          ((rws step e + discount * vps (step + 1) e * mks (step + 1) e -
            vps step e) +
           discount * gaeLambda * mks (step + 1) e * gae e) + vps step e))

/-- `ExperienceStorage.compute_returns`: writes the bootstrap value into
`value_predictions[-1]` (slot `num_steps`), then runs the backward GAE
recursion for `step` from `num_steps - 1` down to `0` with `gae` initialised
to zero, storing `returns[step] = gae + value_predictions[step]`. -/
def computeReturns (st : ExperienceStorage) (nextValue : ℕ → ℚ)
    (discount gaeLambda : ℚ) : ExperienceStorage :=
  let vps := writeSlot st.valuePredictions st.numSteps nextValue
  { st with
    valuePredictions := vps
    returns := computeReturnsGo discount gaeLambda st.rewards vps st.masks
      (List.range st.numSteps).reverse (fun _ => 0) st.returns }

/-- `ExperienceStorage.after_update`: copies slot `num_steps` (Python index
`-1`) of `observations`, `recurrent_hidden_states` and `masks` into slot 0. -/
def afterUpdate (st : ExperienceStorage) : ExperienceStorage :=
  { st with
    observations := writeSlot2 st.observations 0 (st.observations st.numSteps)
    recurrentHiddenStates :=
      writeSlot2 st.recurrentHiddenStates 0
        (st.recurrentHiddenStates st.numSteps)
    masks := writeSlot st.masks 0 (st.masks st.numSteps) }

/-- The closed-form backward GAE recursion (elementwise per environment `e`):
the value the running `gae` variable holds after the loop has processed steps
`numSteps - 1` down to `s` (zero when `s ≥ numSteps`, i.e. before the loop
starts). -/
def gaeClosed (numSteps : ℕ) (discount gaeLambda : ℚ)
    (rws vps mks : ℕ → ℕ → ℚ) (s e : ℕ) : ℚ :=
  if _h : s < numSteps then
    (rws s e + discount * vps (s + 1) e * mks (s + 1) e - vps s e) +
      discount * gaeLambda * mks (s + 1) e *
        gaeClosed numSteps discount gaeLambda rws vps mks (s + 1) e
  else 0
termination_by numSteps - s

/-- A small concrete buffer (2 steps, 2 environments) with a reset entering
step 1 for environment 0, used to instantiate hypotheses of the theorems at
concrete inputs. -/
def sampleStorage : ExperienceStorage where
  numSteps := 2
  numEnvs := 2
  step := 0
  observations := fun t e i => (t : ℚ) + e + i
  actions := fun t e => (t : ℤ) + e + 1
  actionLogProbs := fun t e => (t : ℚ) - e
  rewards := fun t e => (t : ℚ) + 2 * e + 1
  valuePredictions := fun t e => ((t : ℚ) + e + 1) / 2
  returns := fun _ _ => 0
  masks := fun t e => if t = 1 ∧ e = 0 then 0 else 1
  recurrentHiddenStates := fun t e i => (t : ℚ) * 4 + e * 2 + i

/-- A variant of `sampleStorage` whose rewards, value predictions and masks
differ from step 1 onward (same shape, same data at step 0). -/
def sampleStorageAlt : ExperienceStorage :=
  { sampleStorage with
    rewards := fun t e => if 1 ≤ t then 99 else sampleStorage.rewards t e
    valuePredictions := fun t e =>
      if 1 ≤ t then -7 else sampleStorage.valuePredictions t e }

/-- A small concrete buffer (2 steps, 2 environments) with all masks equal to
one (no resets anywhere). -/
def sampleStorageOnes : ExperienceStorage :=
  { sampleStorage with masks := fun _ _ => 1 }

/-- A variant of `sampleStorage` with three environments (used to exercise the
divisibility check of `batches`). -/
def sampleStorageThreeEnvs : ExperienceStorage :=
  { sampleStorage with numEnvs := 3 }

/-- Python `range(0, stop, stp)` for a positive stride `stp`: the multiples of
`stp` below `stop` (`⌈stop / stp⌉` of them), in order. -/
def pyRangeBy (stop stp : ℕ) : List ℕ :=
  (List.range ((stop + stp - 1) / stp)).map (· * stp)

/-- `ExperienceBatch._flatten`: the `view(num_steps * num_envs, ...)` of a
time-major `rows × cols` tensor; flat row `r` holds entry `(r / cols, r % cols)`. -/
def flatten2 {α : Type} (cols : ℕ) (f : ℕ → ℕ → α) : ℕ → α :=
  fun r => f (r / cols) (r % cols)

/-- Advanced-indexing gather along the environment axis: `tensor[:, indices]`
(column `j` of the result is the environment `indices[j]` of the input). -/
def gatherEnvs {α : Type} (f : ℕ → ℕ → α) (indices : List ℕ) : ℕ → ℕ → α :=
  fun t j => f t (indices.getD j 0)

/-- The flattened tensors an `ExperienceBatch` stores (src/experience.py).
The `advantage_targets` field is omitted: no claim concerns it, and its
standardisation divides by a standard deviation, an operation outside ℚ. -/
structure ExperienceBatch where
  observations : ℕ → ℕ → ℚ
  actions : ℕ → ℤ
  prevActions : ℕ → ℤ
  prevRewards : ℕ → ℚ
  actionLogProbs : ℕ → ℚ
  returns : ℕ → ℚ
  valuePredictions : ℕ → ℚ
  masks : ℕ → ℚ
  recurrentHiddenStates : ℕ → ℕ → ℚ

/-- One iteration of the loop in `ExperienceStorage.batches` followed by the
`ExperienceBatch` constructor: the group's columns of each field (steps
`0..T-1`, i.e. the `[:-1]` slice where the tensor has a bootstrap slot),
the zero-filled one-step-shifted `prev_actions`/`prev_rewards` series, and the
step-0 hidden states, all flattened row-major. -/
def mkExperienceBatch (st : ExperienceStorage) (indices : List ℕ) :
    ExperienceBatch where
  observations := flatten2 indices.length (gatherEnvs st.observations indices)
  actions := flatten2 indices.length (gatherEnvs st.actions indices)
  prevActions := flatten2 indices.length
    (fun t j => if t = 0 then 0 else gatherEnvs st.actions indices (t - 1) j)
  prevRewards := flatten2 indices.length
    (fun t j => if t = 0 then 0 else gatherEnvs st.rewards indices (t - 1) j)
  actionLogProbs :=
    flatten2 indices.length (gatherEnvs st.actionLogProbs indices)
  returns := flatten2 indices.length (gatherEnvs st.returns indices)
  valuePredictions :=
    flatten2 indices.length (gatherEnvs st.valuePredictions indices)
  masks := flatten2 indices.length (gatherEnvs st.masks indices)
  recurrentHiddenStates := fun j i =>
    st.recurrentHiddenStates 0 (indices.getD j 0) i

/-- The environment-index groups formed by `ExperienceStorage.batches`:
`random_env_indices[start : start + num_envs_per_batch]` for `start` in
`range(0, num_envs, num_envs_per_batch)` with
`num_envs_per_batch = num_envs // minibatches`. -/
def envGroups (numEnvs minibatches : ℕ) (perm : List ℕ) : List (List ℕ) :=
  (pyRangeBy numEnvs (numEnvs / minibatches)).map
    (fun start => (perm.drop start).take (numEnvs / minibatches))

/-- The failure mode of `ExperienceStorage.batches`: the `assert` on
`num_envs % minibatches` raising. -/
inductive BatchError where
  | assertionFailed : BatchError

/-- `ExperienceStorage.batches`: asserts `num_envs % minibatches == 0`, then
yields one `ExperienceBatch` per group of the drawn permutation
`random_env_indices` (modelled by the argument `perm`). -/
def batches (st : ExperienceStorage) (minibatches : ℕ) (perm : List ℕ) :
    Except BatchError (List ExperienceBatch) :=
  if st.numEnvs % minibatches = 0 then
    Except.ok ((envGroups st.numEnvs minibatches perm).map
      (mkExperienceBatch st))
  else
    Except.error BatchError.assertionFailed

/-! ## Recurrent segmentation engine (`RecurrentPolicy._forward_gru`)

A recurrent cell is any `cell : α → (ℕ → ℚ) → β × (ℕ → ℚ)`: one timestep of
input (type `α`) and a hidden vector to one output (type `β`) and the new
hidden vector.  `nn.GRU` (like every standard recurrent cell) processes the
rows of a batch independently and a multi-step call is the sequential scan
of its one-step transition, so a batched multi-step `nn.GRU` invocation is
modelled as the per-environment scan of the cell. -/

/-- `hxs * mask`: scale a hidden vector by a (0/1) mask entry, broadcast
over the hidden dimension. -/
def maskHidden (m : ℚ) (h : ℕ → ℚ) : ℕ → ℚ := fun i => m * h i

/-- One `nn.GRU` call on the contiguous timestep slice `ts` (batched over
environments, no masking inside the call): the sequential scan of the cell,
returning per-timestep batched outputs and the final batched hidden state. -/
def gruSeq {α β : Type} (cell : α → (ℕ → ℚ) → β × (ℕ → ℚ))
    (xs : ℕ → ℕ → α) :
    List ℕ → (ℕ → ℕ → ℚ) → List (ℕ → β) × (ℕ → ℕ → ℚ)
  | [], h => ([], h)
  | t :: ts, h =>
      let res := gruSeq cell xs ts (fun e => (cell (xs t e) (h e)).2)
      ((fun e => (cell (xs t e) (h e)).1) :: res.1, res.2)

/-- The timesteps `t ∈ 1..T'-1` at which some environment's mask is zero, in
increasing order: `((masks[1:] == 0.0).any(dim=-1).nonzero() + 1)` of
`_forward_gru` (the `dim() == 0` squeeze special case only changes the
container, not the indices). -/
def hasZerosList (numStepsPerUpdate numEnvsPerBatch : ℕ)
    (masks : ℕ → ℕ → ℚ) : List ℕ :=
  ((List.range (numStepsPerUpdate - 1)).filter
    (fun t => decide (∃ e, e < numEnvsPerBatch ∧ masks (t + 1) e = 0))).map
    (· + 1)

/-- The block loop of `_forward_gru`: for each pair of consecutive
boundaries `(start, b)` run the cell over timesteps `[start, b)` with the
carried hidden state pre-multiplied by `masks[start]` (per environment,
broadcast over the hidden dimension), concatenating block outputs. -/
def blocksRun {α β : Type} (cell : α → (ℕ → ℚ) → β × (ℕ → ℚ))
    (xs : ℕ → ℕ → α) (masks : ℕ → ℕ → ℚ) :
    ℕ → List ℕ → (ℕ → ℕ → ℚ) → List (ℕ → β) × (ℕ → ℕ → ℚ)
  | _, [], h => ([], h)
  | start, b :: rest, h =>
      let blk := gruSeq cell xs (List.range' start (b - start))
        (fun e => maskHidden (masks start e) (h e))
      let res := blocksRun cell xs masks b rest blk.2
      (blk.1 ++ res.1, res.2)

/-- The multi-step (training) path of `_forward_gru`: build the boundary
list `[0] + has_zeros + [T']` and run the block loop over consecutive
boundary pairs, starting from the first boundary `0`. -/
def forwardGruMulti {α β : Type} (cell : α → (ℕ → ℚ) → β × (ℕ → ℚ))
    (numStepsPerUpdate numEnvsPerBatch : ℕ)
    (xs : ℕ → ℕ → α) (masks : ℕ → ℕ → ℚ) (h : ℕ → ℕ → ℚ) :
    List (ℕ → β) × (ℕ → ℕ → ℚ) :=
  blocksRun cell xs masks 0
    (hasZerosList numStepsPerUpdate numEnvsPerBatch masks ++
      [numStepsPerUpdate]) h

/-- The single-step fast path of `_forward_gru` (`x.size(0) == rnn_hxs.size(0)`:
one cell application with the hidden state pre-multiplied by the current
mask), iterated over the listed timesteps in order. -/
def fastRun {α β : Type} (cell : α → (ℕ → ℚ) → β × (ℕ → ℚ))
    (xs : ℕ → ℕ → α) (masks : ℕ → ℕ → ℚ) :
    List ℕ → (ℕ → ℕ → ℚ) → List (ℕ → β) × (ℕ → ℕ → ℚ)
  | [], h => ([], h)
  | t :: ts, h =>
      let res := fastRun cell xs masks ts
        (fun e => (cell (xs t e) (maskHidden (masks t e) (h e))).2)
      ((fun e => (cell (xs t e) (maskHidden (masks t e) (h e))).1) :: res.1,
        res.2)

/-- Single-environment restriction of `gruSeq` (proof device). -/
def gruSeq1 {α β : Type} (cell : α → (ℕ → ℚ) → β × (ℕ → ℚ))
    (xr : ℕ → α) : List ℕ → (ℕ → ℚ) → List β × (ℕ → ℚ)
  | [], h => ([], h)
  | t :: ts, h =>
      let res := gruSeq1 cell xr ts (cell (xr t) h).2
      ((cell (xr t) h).1 :: res.1, res.2)

/-- Single-environment restriction of `fastRun` (proof device). -/
def fastRun1 {α β : Type} (cell : α → (ℕ → ℚ) → β × (ℕ → ℚ))
    (xr : ℕ → α) (mr : ℕ → ℚ) : List ℕ → (ℕ → ℚ) → List β × (ℕ → ℚ)
  | [], h => ([], h)
  | t :: ts, h =>
      let res := fastRun1 cell xr mr ts
        (cell (xr t) (maskHidden (mr t) h)).2
      ((cell (xr t) (maskHidden (mr t) h)).1 :: res.1, res.2)

/-- Single-environment restriction of `blocksRun` (proof device). -/
def blocksRun1 {α β : Type} (cell : α → (ℕ → ℚ) → β × (ℕ → ℚ))
    (xr : ℕ → α) (mr : ℕ → ℚ) :
    ℕ → List ℕ → (ℕ → ℚ) → List β × (ℕ → ℚ)
  | _, [], h => ([], h)
  | start, b :: rest, h =>
      let blk := gruSeq1 cell xr (List.range' start (b - start))
        (maskHidden (mr start) h)
      let res := blocksRun1 cell xr mr b rest blk.2
      (blk.1 ++ res.1, res.2)

/-- A concrete recurrent cell used to instantiate the segmentation theorem:
output and new hidden both mix the input with the old hidden state. -/
def sampleCell : ℚ → (ℕ → ℚ) → ℚ × (ℕ → ℚ) :=
  fun x h => (x + h 0, fun i => x + h i)

/-- Concrete batched inputs for the segmentation theorem (3 steps, 2 envs). -/
def sampleXs : ℕ → ℕ → ℚ := fun t e => (t : ℚ) + 2 * e

/-- Concrete masks with a reset entering step 2 for environment 0. -/
def sampleMasks : ℕ → ℕ → ℚ := fun t e => if t = 2 ∧ e = 0 then 0 else 1

/-- Concrete initial hidden states for the segmentation theorem. -/
def sampleHidden : ℕ → ℕ → ℚ := fun e i => (e : ℚ) + i

theorem gaeClosed_of_lt {numSteps : ℕ} {discount gaeLambda : ℚ}
    {rws vps mks : ℕ → ℕ → ℚ} {s : ℕ} (e : ℕ) (h : s < numSteps) :
    gaeClosed numSteps discount gaeLambda rws vps mks s e =
      (rws s e + discount * vps (s + 1) e * mks (s + 1) e - vps s e) +
        discount * gaeLambda * mks (s + 1) e *
          gaeClosed numSteps discount gaeLambda rws vps mks (s + 1) e := by
  rw [gaeClosed, dif_pos h]

theorem gaeClosed_of_ge {numSteps : ℕ} {discount gaeLambda : ℚ}
    {rws vps mks : ℕ → ℕ → ℚ} {s : ℕ} (e : ℕ) (h : numSteps ≤ s) :
    gaeClosed numSteps discount gaeLambda rws vps mks s e = 0 := by
  rw [gaeClosed, dif_neg (by omega)]

/-- The loop invariant for `computeReturnsGo` run on `[k-1, ..., 0]` with the
running `gae` pointwise equal to the closed form at `k`: afterwards slot
`s < k` holds `gaeClosed s + vps s`, and all other slots are untouched. -/
theorem computeReturnsGo_spec (numSteps : ℕ) (discount gaeLambda : ℚ)
    (rws vps mks : ℕ → ℕ → ℚ) :
    ∀ (k : ℕ) (g : ℕ → ℚ) (rets : ℕ → ℕ → ℚ), k ≤ numSteps →
      (∀ e, g e = gaeClosed numSteps discount gaeLambda rws vps mks k e) →
      ∀ s e, computeReturnsGo discount gaeLambda rws vps mks
          (List.range k).reverse g rets s e =
        if s < k then
          gaeClosed numSteps discount gaeLambda rws vps mks s e + vps s e
        else rets s e := by
  intro k
  induction k with
  | zero =>
      intro g rets _ _ s e
      simp [computeReturnsGo]
  | succ k ih =>
      intro g rets hk hg s e
      have hstep : (List.range (k + 1)).reverse = k :: (List.range k).reverse := by
        rw [List.range_succ, List.reverse_append]
        rfl
      rw [hstep, computeReturnsGo]
      have hklt : k < numSteps := by omega
      have hg' : ∀ e,
          (rws k e + discount * vps (k + 1) e * mks (k + 1) e - vps k e) +
            discount * gaeLambda * mks (k + 1) e * g e =
          gaeClosed numSteps discount gaeLambda rws vps mks k e := by
        intro e
        rw [hg e, gaeClosed_of_lt e hklt]
      rw [ih _ _ (by omega) hg' s e]
      by_cases hs : s < k
      · rw [if_pos hs, if_pos (by omega)]
      · by_cases hsk : s = k
        · subst hsk
          rw [if_neg hs, if_pos (by omega), writeSlot, if_pos rfl]
          rw [hg' e]
        · rw [if_neg hs, if_neg (by omega), writeSlot, if_neg hsk]

/-- Characterisation of `computeReturns`: slot `s < numSteps` of `returns`
holds the closed-form GAE plus the (bootstrap-updated) value prediction. -/
theorem computeReturns_returns_eq (st : ExperienceStorage) (v : ℕ → ℚ)
    (discount gaeLambda : ℚ) (s e : ℕ) (hs : s < st.numSteps) :
    (computeReturns st v discount gaeLambda).returns s e =
      gaeClosed st.numSteps discount gaeLambda st.rewards
        (writeSlot st.valuePredictions st.numSteps v) st.masks s e +
      writeSlot st.valuePredictions st.numSteps v s e := by
  show computeReturnsGo discount gaeLambda st.rewards
      (writeSlot st.valuePredictions st.numSteps v) st.masks
      (List.range st.numSteps).reverse (fun _ => 0) st.returns s e = _
  rw [computeReturnsGo_spec st.numSteps discount gaeLambda st.rewards
      (writeSlot st.valuePredictions st.numSteps v) st.masks st.numSteps
      (fun _ => 0) st.returns le_rfl
      (fun e => (gaeClosed_of_ge e le_rfl).symm) s e,
    if_pos hs]

/-- When the mask entering step `s + 1` is zero for environment `e`, the
computed return at `(s, e)` collapses to the raw reward at `(s, e)`. -/
theorem computeReturns_returns_of_mask_zero (st : ExperienceStorage)
    (v : ℕ → ℚ) (discount gaeLambda : ℚ) (s e : ℕ) (hs : s < st.numSteps)
    (hm : st.masks (s + 1) e = 0) :
    (computeReturns st v discount gaeLambda).returns s e =
      st.rewards s e := by
  rw [computeReturns_returns_eq st v discount gaeLambda s e hs,
    gaeClosed_of_lt e hs, hm]
  ring_nf

/-- C2: `compute_returns` sets `value_predictions[T]` to the bootstrap value
and stores, for each step `s < T` and each environment, `returns[s] = gae + value[s]`
where `gae` follows the backward recursion
`delta = reward[s] + γ·value[s+1]·mask[s+1] − value[s]`,
`gae = delta + γ·λ·mask[s+1]·gae` with `gae` initialised to zero at the top
(`gaeClosed` is exactly that recursion, run from `T-1` down to `s`). -/
theorem compute_returns_writes_bootstrap_and_gae (st : ExperienceStorage)
    (v : ℕ → ℚ) (discount gaeLambda : ℚ) (s e : ℕ)
    (hs : s < st.numSteps) :
    (computeReturns st v discount gaeLambda).valuePredictions st.numSteps e
        = v e ∧
    (computeReturns st v discount gaeLambda).returns s e =
      gaeClosed st.numSteps discount gaeLambda st.rewards
        (writeSlot st.valuePredictions st.numSteps v) st.masks s e +
      writeSlot st.valuePredictions st.numSteps v s e := by
  refine ⟨?_, computeReturns_returns_eq st v discount gaeLambda s e hs⟩
  show writeSlot st.valuePredictions st.numSteps v st.numSteps e = v e
  rw [writeSlot, if_pos rfl]

theorem compute_returns_writes_bootstrap_and_gae_witness :
    (computeReturns sampleStorage (fun _ => 1) (1/2) (1/4)).valuePredictions
        sampleStorage.numSteps 0 = (fun _ => (1 : ℚ)) 0 ∧
    (computeReturns sampleStorage (fun _ => 1) (1/2) (1/4)).returns 0 0 =
      gaeClosed sampleStorage.numSteps (1/2) (1/4) sampleStorage.rewards
        (writeSlot sampleStorage.valuePredictions sampleStorage.numSteps
          (fun _ => 1)) sampleStorage.masks 0 0 +
      writeSlot sampleStorage.valuePredictions sampleStorage.numSteps
        (fun _ => 1) 0 0 :=
  compute_returns_writes_bootstrap_and_gae sampleStorage (fun _ => 1)
    (1/2) (1/4) 0 0 (by decide)

/-- C3: if the mask entering step `s + 1` is zero for environment `e`, the
return at `(s, e)` depends only on `rewards[s, e]` and
`value_predictions[s, e]`: two buffers agreeing there (and both having the
zero mask) give the same `returns[s, e]` no matter how their rewards, value
predictions and bootstrap values differ from step `s + 1` on. -/
theorem returns_no_leak_across_reset (stA stB : ExperienceStorage)
    (vA vB : ℕ → ℚ) (discount gaeLambda : ℚ) (s e : ℕ)
    (hT : stB.numSteps = stA.numSteps)
    (hs : s < stA.numSteps)
    (hmA : stA.masks (s + 1) e = 0) (hmB : stB.masks (s + 1) e = 0)
    (hrw : stB.rewards s e = stA.rewards s e)
    (_hvp : stB.valuePredictions s e = stA.valuePredictions s e) :
    (computeReturns stB vB discount gaeLambda).returns s e =
      (computeReturns stA vA discount gaeLambda).returns s e := by
  rw [computeReturns_returns_of_mask_zero stA vA discount gaeLambda s e hs hmA,
    computeReturns_returns_of_mask_zero stB vB discount gaeLambda s e
      (hT ▸ hs) hmB, hrw]

theorem returns_no_leak_across_reset_witness :
    (computeReturns sampleStorageAlt (fun _ => -3) (99/100) (19/20)).returns
        0 0 =
      (computeReturns sampleStorage (fun _ => 1) (99/100) (19/20)).returns
        0 0 :=
  returns_no_leak_across_reset sampleStorage sampleStorageAlt
    (fun _ => 1) (fun _ => -3) (99/100) (19/20) 0 0 rfl (by decide)
    rfl rfl rfl rfl

/-- Sum form of the GAE recursion when all masks are one and
`discount = gaeLambda = 1`: `gaeClosed s + value[s]` telescopes to the
undiscounted sum of future rewards plus the bootstrap value. -/
theorem gaeClosed_ones_telescopes (st : ExperienceStorage) (v : ℕ → ℚ)
    (e : ℕ) (hmask : ∀ t, t ≤ st.numSteps → st.masks t e = 1) :
    ∀ n s, s + n = st.numSteps →
      gaeClosed st.numSteps 1 1 st.rewards
          (writeSlot st.valuePredictions st.numSteps v) st.masks s e +
        writeSlot st.valuePredictions st.numSteps v s e =
      (∑ t ∈ Finset.Ico s st.numSteps, st.rewards t e) + v e := by
  intro n
  induction n with
  | zero =>
      intro s h
      have hsT : s = st.numSteps := by omega
      subst hsT
      rw [gaeClosed_of_ge e le_rfl, writeSlot, if_pos rfl, Finset.Ico_self,
        Finset.sum_empty, zero_add]
  | succ n ih =>
      intro s h
      have hs : s < st.numSteps := by omega
      rw [gaeClosed_of_lt e hs, hmask (s + 1) (by omega),
        Finset.sum_eq_sum_Ico_succ_bot hs]
      have hvs : writeSlot st.valuePredictions st.numSteps v s e =
          st.valuePredictions s e := by
        rw [writeSlot, if_neg (by omega)]
      have := ih (s + 1) (by omega)
      rw [hvs] at *
      linarith [this]

/-- C4: with every mask equal to one and `discount = gaeLambda = 1`,
`compute_returns` with bootstrap value `v` stores at each step `s < T` the
undiscounted Monte-Carlo return: the sum of rewards from `s` to `T - 1` plus
`v`, for every environment. -/
theorem returns_monte_carlo_when_no_resets (st : ExperienceStorage)
    (v : ℕ → ℚ) (s e : ℕ)
    (hmask : ∀ t e, t ≤ st.numSteps → st.masks t e = 1)
    (hs : s < st.numSteps) :
    (computeReturns st v 1 1).returns s e =
      (∑ t ∈ Finset.Ico s st.numSteps, st.rewards t e) + v e := by
  rw [computeReturns_returns_eq st v 1 1 s e hs]
  exact gaeClosed_ones_telescopes st v e (fun t ht => hmask t e ht)
    (st.numSteps - s) s (by omega)

theorem returns_monte_carlo_when_no_resets_witness :
    (computeReturns sampleStorageOnes (fun _ => 5) 1 1).returns 0 1 =
      (∑ t ∈ Finset.Ico 0 sampleStorageOnes.numSteps,
        sampleStorageOnes.rewards t 1) + (fun _ => (5 : ℚ)) 1 :=
  returns_monte_carlo_when_no_resets sampleStorageOnes (fun _ => 5) 0 1
    (fun _ _ _ => rfl) (by decide)

/-- C8: `after_update` copies the terminal slot (`num_steps`, Python index
`-1`) of `observations`, `recurrent_hidden_states` and `masks` into slot 0,
leaves every other slot of those three tensors unchanged, and leaves
`actions`, `action_log_probs`, `rewards`, `value_predictions`, `returns` and
the write cursor `_step` untouched. -/
theorem after_update_copies_terminal_slot (st : ExperienceStorage) :
    ((afterUpdate st).observations 0 = st.observations st.numSteps ∧
     (afterUpdate st).recurrentHiddenStates 0 =
       st.recurrentHiddenStates st.numSteps ∧
     (afterUpdate st).masks 0 = st.masks st.numSteps) ∧
    (∀ t, t ≠ 0 →
      (afterUpdate st).observations t = st.observations t ∧
      (afterUpdate st).recurrentHiddenStates t =
        st.recurrentHiddenStates t ∧
      (afterUpdate st).masks t = st.masks t) ∧
    (afterUpdate st).actions = st.actions ∧
    (afterUpdate st).actionLogProbs = st.actionLogProbs ∧
    (afterUpdate st).rewards = st.rewards ∧
    (afterUpdate st).valuePredictions = st.valuePredictions ∧
    (afterUpdate st).returns = st.returns ∧
    (afterUpdate st).step = st.step := by
  refine ⟨⟨?_, ?_, ?_⟩, ?_, rfl, rfl, rfl, rfl, rfl, rfl⟩
  · funext e i
    show writeSlot2 st.observations 0 (st.observations st.numSteps) 0 e i = _
    rw [writeSlot2, if_pos rfl]
  · funext e i
    show writeSlot2 st.recurrentHiddenStates 0
        (st.recurrentHiddenStates st.numSteps) 0 e i = _
    rw [writeSlot2, if_pos rfl]
  · funext e
    show writeSlot st.masks 0 (st.masks st.numSteps) 0 e = _
    rw [writeSlot, if_pos rfl]
  · intro t ht
    refine ⟨?_, ?_, ?_⟩
    · funext e i
      show writeSlot2 st.observations 0 (st.observations st.numSteps) t e i = _
      rw [writeSlot2, if_neg ht]
    · funext e i
      show writeSlot2 st.recurrentHiddenStates 0
          (st.recurrentHiddenStates st.numSteps) t e i = _
      rw [writeSlot2, if_neg ht]
    · funext e
      show writeSlot st.masks 0 (st.masks st.numSteps) t e = _
      rw [writeSlot, if_neg ht]

theorem after_update_copies_terminal_slot_witness :
    (afterUpdate sampleStorage).masks 0 =
      sampleStorage.masks sampleStorage.numSteps ∧
    (afterUpdate sampleStorage).observations 1 =
      sampleStorage.observations 1 ∧
    (afterUpdate sampleStorage).step = sampleStorage.step :=
  ⟨(after_update_copies_terminal_slot sampleStorage).1.2.2,
   ((after_update_copies_terminal_slot sampleStorage).2.1 1 (by decide)).1,
   (after_update_copies_terminal_slot sampleStorage).2.2.2.2.2.2.2⟩

/-- C9: for `0 ≤ s ≤ num_steps`, `get_actor_input(s)` returns
`observations[s]`, `recurrent_hidden_states[s]`, `masks[s]`, and previous
action/reward read from index `s - 1` of `actions`/`rewards`; for `s = 0`
Python's negative-index wraparound makes that index `num_steps - 1` (the
buffer's last valid slot), not a zero sentinel. -/
theorem get_actor_input_reads_prev_slot (st : ExperienceStorage) (s : ℕ)
    (hT : 0 < st.numSteps) (_hs : s ≤ st.numSteps) :
    getActorInput st (s : ℤ) =
      (st.observations s, st.recurrentHiddenStates s, st.masks s,
       st.actions (if s = 0 then st.numSteps - 1 else s - 1),
       st.rewards (if s = 0 then st.numSteps - 1 else s - 1)) := by
  by_cases h0 : s = 0
  · subst h0
    have h1 : pyIdx (st.numSteps + 1) ((0 : ℕ) : ℤ) = 0 := by
      simp [pyIdx]
    have h2 : pyIdx st.numSteps (((0 : ℕ) : ℤ) - 1) = st.numSteps - 1 := by
      rw [pyIdx, if_pos (by omega)]
      omega
    rw [getActorInput, h1, h2, if_pos rfl]
  · have h1 : pyIdx (st.numSteps + 1) (s : ℤ) = s := by
      rw [pyIdx, if_neg (by omega)]
      omega
    have h2 : pyIdx st.numSteps ((s : ℤ) - 1) = s - 1 := by
      rw [pyIdx, if_neg (by omega)]
      omega
    rw [getActorInput, h1, h2, if_neg h0]

theorem get_actor_input_reads_prev_slot_witness :
    getActorInput sampleStorage ((0 : ℕ) : ℤ) =
      (sampleStorage.observations 0, sampleStorage.recurrentHiddenStates 0,
       sampleStorage.masks 0,
       sampleStorage.actions
         (if 0 = 0 then sampleStorage.numSteps - 1 else 0 - 1),
       sampleStorage.rewards
         (if 0 = 0 then sampleStorage.numSteps - 1 else 0 - 1)) :=
  get_actor_input_reads_prev_slot sampleStorage 0 (by decide) (by decide)

/-- C10: the write cursor `_step` is 0 after construction (hence within
`[0, num_steps)` when `num_steps ≥ 1`); `insert` advances it to
`(_step + 1) % num_steps`, which stays below `num_steps`; and
`insert_initial_observations`, `compute_returns` and `after_update` (the
other storage-mutating operations — the accessors and `batches` are pure and
return no storage) leave it unchanged. -/
theorem step_cursor_invariant (numSteps numEnvs : ℕ)
    (st : ExperienceStorage)
    (obs obs2 rhs : ℕ → ℕ → ℚ) (acts : ℕ → ℤ) (lp rws vps mks : ℕ → ℚ)
    (v : ℕ → ℚ) (discount gaeLambda : ℚ)
    (hT : 0 < st.numSteps) :
    (mkStorage numSteps numEnvs).step = 0 ∧
    (0 < numSteps → (mkStorage numSteps numEnvs).step < numSteps) ∧
    (insert st obs acts lp rws vps mks rhs).step =
      (st.step + 1) % st.numSteps ∧
    (insert st obs acts lp rws vps mks rhs).step < st.numSteps ∧
    (insertInitialObservations st obs2).step = st.step ∧
    (computeReturns st v discount gaeLambda).step = st.step ∧
    (afterUpdate st).step = st.step :=
  ⟨rfl, fun h => h, rfl, Nat.mod_lt _ hT, rfl, rfl, rfl⟩

theorem step_cursor_invariant_witness :
    (mkStorage 2 2).step = 0 ∧
    (0 < 2 → (mkStorage 2 2).step < 2) ∧
    (insert sampleStorage (fun _ _ => 0) (fun _ => 0) (fun _ => 0)
      (fun _ => 0) (fun _ => 0) (fun _ => 1) (fun _ _ => 0)).step =
      (sampleStorage.step + 1) % sampleStorage.numSteps ∧
    (insert sampleStorage (fun _ _ => 0) (fun _ => 0) (fun _ => 0)
      (fun _ => 0) (fun _ => 0) (fun _ => 1) (fun _ _ => 0)).step <
      sampleStorage.numSteps ∧
    (insertInitialObservations sampleStorage (fun _ _ => 0)).step =
      sampleStorage.step ∧
    (computeReturns sampleStorage (fun _ => 0) 1 1).step =
      sampleStorage.step ∧
    (afterUpdate sampleStorage).step = sampleStorage.step :=
  step_cursor_invariant 2 2 sampleStorage (fun _ _ => 0) (fun _ _ => 0)
    (fun _ _ => 0) (fun _ => 0) (fun _ => 0) (fun _ => 0) (fun _ => 0)
    (fun _ => 1) (fun _ => 0) 1 1 (by decide)

/-- Splitting a list of length `k * epb` into `k` successive chunks of size
`epb` and flattening recovers the list. -/
theorem chunks_flatten : ∀ (k epb : ℕ) (perm : List ℕ),
    perm.length = k * epb →
    ((List.range k).map
      (fun i => (perm.drop (i * epb)).take epb)).flatten = perm := by
  intro k
  induction k with
  | zero =>
      intro epb perm h
      simp only [List.range_zero, List.map_nil, List.flatten_nil]
      exact (List.eq_nil_of_length_eq_zero (by omega)).symm
  | succ k ih =>
      intro epb perm h
      rw [List.range_succ_eq_map, List.map_cons, List.flatten_cons]
      have hmap : List.map
            ((fun i => (perm.drop (i * epb)).take epb) ∘ Nat.succ)
            (List.range k) =
          List.map (fun i => (((perm.drop epb).drop (i * epb)).take epb))
            (List.range k) := by
        apply List.map_congr_left
        intro a _
        show (perm.drop (Nat.succ a * epb)).take epb = _
        rw [List.drop_drop]
        congr 1
        rw [Nat.succ_eq_add_one]
        ring_nf
      rw [List.map_map, hmap,
        ih epb (perm.drop epb)
          (by rw [List.length_drop, h, Nat.succ_mul, Nat.add_sub_cancel]),
        Nat.zero_mul, List.drop_zero, List.take_append_drop]

/-- When the stride divides the stop (both positive), Python
`range(0, k·epb, epb)` is `[0, epb, ..., (k-1)·epb]`. -/
theorem pyRangeBy_eq (k epb : ℕ) (hepb : 0 < epb) :
    pyRangeBy (k * epb) epb = (List.range k).map (· * epb) := by
  rw [pyRangeBy]
  congr 2
  have h1 : k * epb + epb - 1 = epb * k + (epb - 1) := by
    rw [Nat.mul_comm]
    omega
  rw [h1, Nat.mul_add_div hepb, Nat.div_eq_of_lt (by omega)]
  omega

/-- The groups of `batches` are the `k` successive chunks of size
`num_envs / k` of the permutation. -/
theorem envGroups_eq_chunks (numEnvs k : ℕ) (perm : List ℕ) (hk : 0 < k)
    (hdvd : k ∣ numEnvs) (hE : 0 < numEnvs) :
    envGroups numEnvs k perm =
      (List.range k).map
        (fun i => (perm.drop (i * (numEnvs / k))).take (numEnvs / k)) := by
  obtain ⟨epb, rfl⟩ := hdvd
  have hepb0 : 0 < epb := by
    rcases Nat.eq_zero_or_pos epb with h | h
    · subst h
      simp at hE
    · exact h
  have hq : k * epb / k = epb := Nat.mul_div_cancel_left epb hk
  rw [envGroups, hq, pyRangeBy_eq k epb hepb0, List.map_map]
  rfl

/-- Flattening the groups of `batches` recovers the permutation. -/
theorem envGroups_flatten (numEnvs k : ℕ) (perm : List ℕ) (hk : 0 < k)
    (hdvd : k ∣ numEnvs) (hE : 0 < numEnvs)
    (hlen : perm.length = numEnvs) :
    (envGroups numEnvs k perm).flatten = perm := by
  rw [envGroups_eq_chunks numEnvs k perm hk hdvd hE]
  obtain ⟨epb, rfl⟩ := hdvd
  have hq : k * epb / k = epb := Nat.mul_div_cancel_left epb hk
  rw [hq]
  exact chunks_flatten k epb perm (by rw [hlen])

/-- C5: under a divisibility-respecting configuration and any drawn
permutation of the environments, `batches` succeeds and yields exactly `k`
batches; the environment-index groups have size `num_envs / k` each, are
pairwise disjoint, and jointly enumerate every environment exactly once; for
`k = 1` the single group is the whole permutation (every environment's full
slice in one batch). -/
theorem batches_partition_envs (st : ExperienceStorage) (k : ℕ)
    (perm : List ℕ) (hk : 0 < k) (hdvd : k ∣ st.numEnvs)
    (hE : 0 < st.numEnvs)
    (hperm : List.Perm perm (List.range st.numEnvs)) :
    batches st k perm =
      Except.ok ((envGroups st.numEnvs k perm).map (mkExperienceBatch st)) ∧
    ((envGroups st.numEnvs k perm).map (mkExperienceBatch st)).length = k ∧
    (∀ g ∈ envGroups st.numEnvs k perm, g.length = st.numEnvs / k) ∧
    List.Perm (envGroups st.numEnvs k perm).flatten
      (List.range st.numEnvs) ∧
    List.Pairwise List.Disjoint (envGroups st.numEnvs k perm) ∧
    (k = 1 → envGroups st.numEnvs k perm = [perm]) := by
  have hlen : perm.length = st.numEnvs := by
    have := hperm.length_eq
    rwa [List.length_range] at this
  have hflat : (envGroups st.numEnvs k perm).flatten = perm :=
    envGroups_flatten st.numEnvs k perm hk hdvd hE hlen
  refine ⟨?_, ?_, ?_, ?_, ?_, ?_⟩
  · have hmod0 : st.numEnvs % k = 0 := by
      obtain ⟨c, hc⟩ := hdvd
      rw [hc]
      exact Nat.mul_mod_right k c
    rw [batches, if_pos hmod0]
  · rw [List.length_map, envGroups_eq_chunks st.numEnvs k perm hk hdvd hE,
      List.length_map, List.length_range]
  · rw [envGroups_eq_chunks st.numEnvs k perm hk hdvd hE]
    intro g hg
    obtain ⟨i, hi, rfl⟩ := List.mem_map.mp hg
    have hik : i < k := List.mem_range.mp hi
    obtain ⟨epb, hepb⟩ := hdvd
    have hq : st.numEnvs / k = epb := by
      rw [hepb]
      exact Nat.mul_div_cancel_left epb hk
    rw [List.length_take, List.length_drop, hlen, hq]
    have hmul : i * epb + epb ≤ k * epb := by
      have : (i + 1) * epb ≤ k * epb := Nat.mul_le_mul_right epb (by omega)
      calc i * epb + epb = (i + 1) * epb := by ring_nf
        _ ≤ k * epb := this
    rw [hepb]
    omega
  · rw [hflat]
    exact hperm
  · have hnodup : (envGroups st.numEnvs k perm).flatten.Nodup := by
      rw [hflat]
      exact hperm.nodup_iff.mpr (List.nodup_range _)
    exact (List.nodup_flatten.mp hnodup).2
  · intro hk1
    subst hk1
    rw [envGroups_eq_chunks st.numEnvs 1 perm hk hdvd hE,
      show List.range 1 = [0] by decide,
      List.map_singleton, Nat.zero_mul, List.drop_zero, Nat.div_one,
      List.take_of_length_le (by omega)]

theorem batches_partition_envs_witness :
    (batches sampleStorage 2 [1, 0] =
      Except.ok ((envGroups sampleStorage.numEnvs 2 [1, 0]).map
        (mkExperienceBatch sampleStorage)) ∧
    ((envGroups sampleStorage.numEnvs 2 [1, 0]).map
      (mkExperienceBatch sampleStorage)).length = 2 ∧
    (∀ g ∈ envGroups sampleStorage.numEnvs 2 [1, 0],
      g.length = sampleStorage.numEnvs / 2) ∧
    List.Perm (envGroups sampleStorage.numEnvs 2 [1, 0]).flatten
      (List.range sampleStorage.numEnvs) ∧
    List.Pairwise List.Disjoint (envGroups sampleStorage.numEnvs 2 [1, 0]) ∧
    (2 = 1 → envGroups sampleStorage.numEnvs 2 [1, 0] = [[1, 0]])) :=
  batches_partition_envs sampleStorage 2 [1, 0] (by decide) ⟨1, rfl⟩
    (by decide) (by decide)

/-- C6: when `minibatches` does not divide `num_envs`, `batches` fails with
the configuration (assertion) error — it never returns a list of batches, so
no batch is produced and no environment is silently dropped. -/
theorem batches_not_dvd_error (st : ExperienceStorage) (k : ℕ)
    (perm : List ℕ) (h : st.numEnvs % k ≠ 0) :
    batches st k perm = Except.error BatchError.assertionFailed := by
  rw [batches, if_neg h]

theorem batches_not_dvd_error_witness :
    batches sampleStorageThreeEnvs 2 [0, 1, 2] =
      Except.error BatchError.assertionFailed :=
  batches_not_dvd_error sampleStorageThreeEnvs 2 [0, 1, 2] (by decide)

/-- C7: in every batch, the flattened `prev_actions`/`prev_rewards` series at
time-major row `(t, j)` is zero when `t = 0` and equals the buffer's
`actions[t-1]`/`rewards[t-1]` at the group's environment `indices[j]` when
`1 ≤ t < T` — history is zero-filled at the start of the sampled
sub-sequence, never carried from the true prior step. -/
theorem batch_prev_series_zero_filled_shift (st : ExperienceStorage)
    (indices : List ℕ) (t j : ℕ) (_ht : t < st.numSteps)
    (hj : j < indices.length) :
    (mkExperienceBatch st indices).prevActions (t * indices.length + j) =
      (if t = 0 then 0 else st.actions (t - 1) (indices.getD j 0)) ∧
    (mkExperienceBatch st indices).prevRewards (t * indices.length + j) =
      (if t = 0 then 0 else st.rewards (t - 1) (indices.getD j 0)) := by
  have hepb : 0 < indices.length := by omega
  have hdiv : (t * indices.length + j) / indices.length = t := by
    rw [Nat.mul_comm t indices.length, Nat.mul_add_div hepb,
      Nat.div_eq_of_lt hj]
    omega
  have hmod : (t * indices.length + j) % indices.length = j := by
    rw [Nat.mul_comm t indices.length, Nat.mul_add_mod, Nat.mod_eq_of_lt hj]
  constructor
  · show flatten2 indices.length
      (fun t j => if t = 0 then 0
        else gatherEnvs st.actions indices (t - 1) j)
      (t * indices.length + j) = _
    rw [flatten2]
    simp only [hdiv, hmod]
    rfl
  · show flatten2 indices.length
      (fun t j => if t = 0 then 0
        else gatherEnvs st.rewards indices (t - 1) j)
      (t * indices.length + j) = _
    rw [flatten2]
    simp only [hdiv, hmod]
    rfl

theorem batch_prev_series_zero_filled_shift_witness :
    ((mkExperienceBatch sampleStorage [1, 0]).prevActions
        (1 * ([1, 0] : List ℕ).length + 0) =
      (if 1 = 0 then 0
        else sampleStorage.actions (1 - 1) (([1, 0] : List ℕ).getD 0 0)) ∧
    (mkExperienceBatch sampleStorage [1, 0]).prevRewards
        (1 * ([1, 0] : List ℕ).length + 0) =
      (if 1 = 0 then 0
        else sampleStorage.rewards (1 - 1) (([1, 0] : List ℕ).getD 0 0))) :=
  batch_prev_series_zero_filled_shift sampleStorage [1, 0] 1 0 (by decide)
    (by decide)

theorem maskHidden_one (h : ℕ → ℚ) : maskHidden 1 h = h :=
  funext fun i => one_mul (h i)

theorem fastRun1_append {α β : Type} (cell : α → (ℕ → ℚ) → β × (ℕ → ℚ))
    (xr : ℕ → α) (mr : ℕ → ℚ) :
    ∀ (l₁ l₂ : List ℕ) (h : ℕ → ℚ),
      fastRun1 cell xr mr (l₁ ++ l₂) h =
        ((fastRun1 cell xr mr l₁ h).1 ++
          (fastRun1 cell xr mr l₂ (fastRun1 cell xr mr l₁ h).2).1,
         (fastRun1 cell xr mr l₂ (fastRun1 cell xr mr l₁ h).2).2) := by
  intro l₁
  induction l₁ with
  | nil =>
      intro l₂ h
      simp [fastRun1]
  | cons t ts ih =>
      intro l₂ h
      simp only [List.cons_append, fastRun1, List.append_eq]
      rw [ih]

theorem fastRun1_eq_gruSeq1_of_ones {α β : Type}
    (cell : α → (ℕ → ℚ) → β × (ℕ → ℚ)) (xr : ℕ → α) (mr : ℕ → ℚ) :
    ∀ (ts : List ℕ) (h : ℕ → ℚ), (∀ t ∈ ts, mr t = 1) →
      fastRun1 cell xr mr ts h = gruSeq1 cell xr ts h := by
  intro ts
  induction ts with
  | nil =>
      intro h _
      rfl
  | cons t ts ih =>
      intro h hones
      simp only [fastRun1, gruSeq1]
      rw [hones t (List.mem_cons_self t ts), maskHidden_one,
        ih _ (fun u hu => hones u (List.mem_cons_of_mem t hu))]

theorem chain_le_getLastD {P : ℕ → ℕ → Prop} :
    ∀ (l : List ℕ) (b : ℕ),
      List.Chain (fun x y => x < y ∧ P x y) b l → b ≤ l.getLastD b := by
  intro l
  induction l with
  | nil =>
      intro b _
      exact le_rfl
  | cons c l ih =>
      intro b hch
      rw [List.getLastD_cons]
      rcases List.chain_cons.mp hch with ⟨⟨hbc, _⟩, hch'⟩
      exact le_of_lt (lt_of_lt_of_le hbc (ih c hch'))

/-- The scalar core of the segmentation argument: running the cell in
contiguous blocks between boundaries (masking only at block starts) equals
running the masked single-step path over every timestep, provided the mask is
one strictly inside each block. -/
theorem blocksRun1_eq_fastRun1 {α β : Type}
    (cell : α → (ℕ → ℚ) → β × (ℕ → ℚ)) (xr : ℕ → α) (mr : ℕ → ℚ) :
    ∀ (bs : List ℕ) (start : ℕ) (h : ℕ → ℚ),
      List.Chain (fun x y => x < y ∧ ∀ t, x < t → t < y → mr t = 1)
        start bs →
      blocksRun1 cell xr mr start bs h =
        fastRun1 cell xr mr
          (List.range' start (bs.getLastD start - start)) h := by
  intro bs
  induction bs with
  | nil =>
      intro start h _
      simp [blocksRun1, fastRun1, List.getLastD_nil, Nat.sub_self,
        List.range']
  | cons b rest ih =>
      intro start h hch
      rcases List.chain_cons.mp hch with ⟨⟨hlt, hgap⟩, hch'⟩
      have hbL : b ≤ rest.getLastD b := chain_le_getLastD rest b hch'
      rw [List.getLastD_cons]
      have hsplit : List.range' start (rest.getLastD b - start) =
          List.range' start (b - start) ++
            List.range' b (rest.getLastD b - b) := by
        have happ := List.range'_append start (b - start)
          (rest.getLastD b - b) 1
        rw [one_mul, show start + (b - start) = b by omega] at happ
        rw [happ]
        congr 1
        omega
      have hblk : fastRun1 cell xr mr (List.range' start (b - start)) h =
          gruSeq1 cell xr (List.range' start (b - start))
            (maskHidden (mr start) h) := by
        obtain ⟨n, hn⟩ : ∃ n, b - start = n + 1 := ⟨b - start - 1, by omega⟩
        rw [hn, List.range'_succ]
        simp only [fastRun1, gruSeq1]
        rw [fastRun1_eq_gruSeq1_of_ones cell xr mr _ _ ?ones]
        case ones =>
          intro u hu
          rcases List.mem_range'.mp hu with ⟨i, hi, rfl⟩
          exact hgap _ (by omega) (by omega)
      rw [hsplit, fastRun1_append cell xr mr _ _ h, hblk]
      simp only [blocksRun1]
      rw [ih b _ hch']

theorem chain_gap_weaken (q : ℕ → Bool) (B a : ℕ) (l : List ℕ)
    (hq : q (a + 1) = false)
    (h : List.Chain
      (fun x y => x < y ∧ y ≤ B ∧ ∀ t, x < t → t < y → q t = false)
      (a + 1) l) :
    List.Chain
      (fun x y => x < y ∧ y ≤ B ∧ ∀ t, x < t → t < y → q t = false)
      a l := by
  cases l with
  | nil => exact List.Chain.nil
  | cons b l' =>
      rcases List.chain_cons.mp h with ⟨⟨hab, hbB, hgap⟩, htail⟩
      refine List.chain_cons.mpr ⟨⟨by omega, hbB, ?_⟩, htail⟩
      intro t hat htb
      by_cases ht : t = a + 1
      · subst ht
        exact hq
      · exact hgap t (by omega) htb

/-- The boundary structure of `_forward_gru`: starting from any `a`, the
filtered timesteps with a zero mask followed by the terminal sentinel form a
strictly increasing chain whose gaps contain no zero-mask timestep. -/
theorem chain_gap (q : ℕ → Bool) (B : ℕ) :
    ∀ (n a : ℕ), a + 1 + n ≤ B →
      List.Chain
        (fun x y => x < y ∧ y ≤ B ∧ ∀ t, x < t → t < y → q t = false)
        a ((List.range' (a + 1) n).filter q ++ [a + 1 + n]) := by
  intro n
  induction n with
  | zero =>
      intro a hB
      refine List.chain_cons.mpr ⟨⟨by omega, by omega, ?_⟩, List.Chain.nil⟩
      intro t h1 h2
      exact absurd h2 (by omega)
  | succ n ih =>
      intro a hB
      rw [List.range'_succ, List.filter_cons]
      have harith : a + 1 + (n + 1) = a + 1 + 1 + n := by omega
      by_cases hq : q (a + 1) = true
      · rw [hq, if_pos rfl, harith]
        refine List.chain_cons.mpr ⟨⟨by omega, by omega, ?_⟩,
          ih (a + 1) (by omega)⟩
        intro t h1 h2
        exact absurd h2 (by omega)
      · have hqf : q (a + 1) = false := by
          revert hq
          cases q (a + 1) <;> simp
        rw [hqf]
        simp only [Bool.false_eq_true, if_false]
        rw [harith]
        exact chain_gap_weaken q B a _ hqf (ih (a + 1) (by omega))

theorem gruSeq_proj {α β : Type} (cell : α → (ℕ → ℚ) → β × (ℕ → ℚ))
    (xs : ℕ → ℕ → α) (e : ℕ) :
    ∀ (ts : List ℕ) (h : ℕ → ℕ → ℚ),
      ((gruSeq cell xs ts h).1.map (fun o => o e) =
        (gruSeq1 cell (fun t => xs t e) ts (h e)).1) ∧
      (gruSeq cell xs ts h).2 e =
        (gruSeq1 cell (fun t => xs t e) ts (h e)).2 := by
  intro ts
  induction ts with
  | nil =>
      intro h
      exact ⟨rfl, rfl⟩
  | cons t ts ih =>
      intro h
      constructor
      · simp only [gruSeq, gruSeq1, List.map_cons]
        exact congrArg₂ List.cons rfl (ih _).1
      · simp only [gruSeq, gruSeq1]
        exact (ih _).2

theorem fastRun_proj {α β : Type} (cell : α → (ℕ → ℚ) → β × (ℕ → ℚ))
    (xs : ℕ → ℕ → α) (masks : ℕ → ℕ → ℚ) (e : ℕ) :
    ∀ (ts : List ℕ) (h : ℕ → ℕ → ℚ),
      ((fastRun cell xs masks ts h).1.map (fun o => o e) =
        (fastRun1 cell (fun t => xs t e) (fun t => masks t e) ts (h e)).1) ∧
      (fastRun cell xs masks ts h).2 e =
        (fastRun1 cell (fun t => xs t e) (fun t => masks t e) ts
          (h e)).2 := by
  intro ts
  induction ts with
  | nil =>
      intro h
      exact ⟨rfl, rfl⟩
  | cons t ts ih =>
      intro h
      constructor
      · simp only [fastRun, fastRun1, List.map_cons]
        exact congrArg₂ List.cons rfl (ih _).1
      · simp only [fastRun, fastRun1]
        exact (ih _).2

theorem blocksRun_proj {α β : Type} (cell : α → (ℕ → ℚ) → β × (ℕ → ℚ))
    (xs : ℕ → ℕ → α) (masks : ℕ → ℕ → ℚ) (e : ℕ) :
    ∀ (bs : List ℕ) (start : ℕ) (h : ℕ → ℕ → ℚ),
      ((blocksRun cell xs masks start bs h).1.map (fun o => o e) =
        (blocksRun1 cell (fun t => xs t e) (fun t => masks t e) start bs
          (h e)).1) ∧
      (blocksRun cell xs masks start bs h).2 e =
        (blocksRun1 cell (fun t => xs t e) (fun t => masks t e) start bs
          (h e)).2 := by
  intro bs
  induction bs with
  | nil =>
      intro start h
      exact ⟨rfl, rfl⟩
  | cons b rest ih =>
      intro start h
      have hgp := gruSeq_proj cell xs e (List.range' start (b - start))
        (fun e => maskHidden (masks start e) (h e))
      constructor
      · simp only [blocksRun, blocksRun1, List.map_append]
        rw [hgp.1, (ih _ _).1, hgp.2]
      · simp only [blocksRun, blocksRun1]
        rw [(ih _ _).2, hgp.2]

theorem fastRun1_length {α β : Type} (cell : α → (ℕ → ℚ) → β × (ℕ → ℚ))
    (xr : ℕ → α) (mr : ℕ → ℚ) :
    ∀ (ts : List ℕ) (h : ℕ → ℚ),
      (fastRun1 cell xr mr ts h).1.length = ts.length := by
  intro ts
  induction ts with
  | nil =>
      intro h
      rfl
  | cons t ts ih =>
      intro h
      simp only [fastRun1, List.length_cons, ih]

/-- `has_zeros` as a filter of the actual timesteps `1..T'-1`. -/
theorem hasZerosList_eq_filter (T E : ℕ) (masks : ℕ → ℕ → ℚ) :
    hasZerosList T E masks =
      (List.range' 1 (T - 1)).filter
        (fun t => decide (∃ e, e < E ∧ masks t e = 0)) := by
  rw [hasZerosList, List.range'_eq_map_range, List.filter_map]
  have h1 : ∀ a ∈ List.range (T - 1),
      (fun t => decide (∃ e, e < E ∧ masks (t + 1) e = 0)) a =
        ((fun t => decide (∃ e, e < E ∧ masks t e = 0)) ∘
          fun x => 1 + x) a := by
    intro a _
    simp only [Function.comp]
    rw [Nat.add_comm a 1]
  rw [List.filter_congr h1]
  exact List.map_congr_left (fun a _ => by omega)

/-- C1: on a multi-step (training) call, the block-segmented replay of
`_forward_gru` — splitting at every timestep `1 ≤ t ≤ T'-1` where some
environment's mask is zero, running the recurrent cell over each contiguous
block with initial hidden state `h_carried * mask[start]`, and carrying the
final hidden state into the next block — produces exactly the same
per-timestep outputs (hence as many as `T'`) and the same final hidden state
as iterating the single-step fast path (hidden state pre-multiplied by that
timestep's mask) over all `T'` timesteps in order, for every environment of
the batch independently and for every recurrent cell, whenever the masks are
0/1-valued. -/
theorem forward_gru_blocks_match_fast_path {α β : Type}
    (cell : α → (ℕ → ℚ) → β × (ℕ → ℚ)) (T E : ℕ)
    (xs : ℕ → ℕ → α) (masks : ℕ → ℕ → ℚ) (h : ℕ → ℕ → ℚ)
    (hT : 0 < T)
    (hmask : ∀ t e, t < T → e < E → masks t e = 0 ∨ masks t e = 1)
    (e : ℕ) (he : e < E) :
    ((forwardGruMulti cell T E xs masks h).1.map (fun o => o e) =
      (fastRun cell xs masks (List.range T) h).1.map (fun o => o e)) ∧
    (forwardGruMulti cell T E xs masks h).2 e =
      (fastRun cell xs masks (List.range T) h).2 e ∧
    (forwardGruMulti cell T E xs masks h).1.length = T := by
  have hchain0 := chain_gap
    (fun t => decide (∃ e, e < E ∧ masks t e = 0)) T (T - 1) 0 (by omega)
  simp only [Nat.zero_add] at hchain0
  rw [show 1 + (T - 1) = T by omega] at hchain0
  have hchain : List.Chain
      (fun x y => x < y ∧ ∀ t, x < t → t < y → masks t e = 1) 0
      (hasZerosList T E masks ++ [T]) := by
    rw [hasZerosList_eq_filter]
    refine hchain0.imp ?_
    rintro x y ⟨hxy, hyB, hgap⟩
    refine ⟨hxy, ?_⟩
    intro t hxt hty
    have ht : t < T := by omega
    have hnz : ¬ (∃ e', e' < E ∧ masks t e' = 0) :=
      of_decide_eq_false (hgap t hxt hty)
    rcases hmask t e ht he with h0 | h1
    · exact absurd ⟨e, he, h0⟩ hnz
    · exact h1
  have hscalar := blocksRun1_eq_fastRun1 cell (fun t => xs t e)
    (fun t => masks t e) (hasZerosList T E masks ++ [T]) 0 (h e) hchain
  rw [List.getLastD_concat, Nat.sub_zero, ← List.range_eq_range']
    at hscalar
  have hbp := blocksRun_proj cell xs masks e
    (hasZerosList T E masks ++ [T]) 0 h
  have hfp := fastRun_proj cell xs masks e (List.range T) h
  refine ⟨?_, ?_, ?_⟩
  · rw [forwardGruMulti, hbp.1, hscalar, ← hfp.1]
  · rw [forwardGruMulti, hbp.2, hscalar, ← hfp.2]
  · rw [forwardGruMulti, ← List.length_map
      ((blocksRun cell xs masks 0 (hasZerosList T E masks ++ [T]) h).1)
      (fun o => o e), hbp.1, hscalar, fastRun1_length, List.length_range]

theorem forward_gru_blocks_match_fast_path_witness :
    ((forwardGruMulti sampleCell 3 2 sampleXs sampleMasks
        sampleHidden).1.map (fun o => o 1) =
      (fastRun sampleCell sampleXs sampleMasks (List.range 3)
        sampleHidden).1.map (fun o => o 1)) ∧
    (forwardGruMulti sampleCell 3 2 sampleXs sampleMasks sampleHidden).2 1 =
      (fastRun sampleCell sampleXs sampleMasks (List.range 3)
        sampleHidden).2 1 ∧
    (forwardGruMulti sampleCell 3 2 sampleXs sampleMasks
      sampleHidden).1.length = 3 :=
  forward_gru_blocks_match_fast_path sampleCell 3 2 sampleXs sampleMasks
    sampleHidden (by decide)
    (by
      intro t e ht he
      interval_cases t <;> interval_cases e <;>
        simp [sampleMasks])
    1 (by decide)

end Mario
